import Mathlib

/-!
Shallow embedding of the RAG pipeline in `pages/lab4.py` of the
`document-qa` repository: the sliding-window text chunker (`chunk_text`),
the per-page PDF ingestor (`read_pdf_as_page_chunks`), the build-once
collection population (`create_lab4_vector_db`), and the prompt assembler
(`build_rag_context`).  Text is modelled as `List Char`; the external PDF
extractor and the vector store are modelled as explicit inputs / state.
-/

set_option autoImplicit false

/-- Python whitespace characters recognised by `str.split()` / `str.strip()`
(space, tab, newline, carriage return, vertical tab, form feed). -/
def isPyWhitespace (c : Char) : Bool :=
  c = ' ' || c = '\t' || c = '\n' || c = '\r' || c = Char.ofNat 11 || c = Char.ofNat 12

/-- Python `text.split()`: maximal runs of non-whitespace characters, in
order; whitespace runs separate tokens and never appear in the output.
Implemented as a right fold carrying (finished tokens, current token). -/
def splitWs (l : List Char) : List (List Char) :=
  let acc := l.foldr
    (fun c (a : List (List Char) × List Char) =>
      if isPyWhitespace c then
        (if a.2 = [] then a.1 else a.2 :: a.1, [])
      else
        (a.1, c :: a.2))
    ([], [])
  if acc.2 = [] then acc.1 else acc.2 :: acc.1

/-- Python `" ".join(text.split())` (lab4.py line 31): collapse whitespace
runs to single spaces and trim both ends. -/
def normalizeWs (l : List Char) : List Char :=
  List.intercalate [' '] (splitWs l)

/-- Python `text.strip()`: remove leading and trailing whitespace. -/
def stripWs (l : List Char) : List Char :=
  ((l.dropWhile isPyWhitespace).reverse.dropWhile isPyWhitespace).reverse

/-- The `while start < len(cleaned_text)` loop of `chunk_text`
(lab4.py lines 37-40): emit `cleaned_text[start : start + chunk_size]`,
advance `start` by `step`, repeat.  The loop is given `text.length` as
fuel; since `step ≥ 1` every iteration advances `start` by at least one,
so `text.length` iterations always suffice (proved in
`chunkLoop_fuel_irrelevant` below). -/
def chunkLoop (text : List Char) (csize step : Nat) : Nat → Nat → List (List Char)
  | 0, _ => []
  | fuel + 1, start =>
    if start < text.length then
      ((text.drop start).take csize) :: chunkLoop text csize step fuel (start + step)
    else
      []

/-- `chunk_text` (lab4.py lines 30-41).  The source's default arguments are
`chunk_size = 1200`, `overlap = 200`; call sites in this file pass them
explicitly. -/
def chunk_text (text : List Char) (chunk_size overlap : Nat) : List (List Char) :=
  let cleaned_text := normalizeWs text
  if cleaned_text = [] then []
  else
    chunkLoop cleaned_text chunk_size (max (chunk_size - overlap) 1) cleaned_text.length 0

/-- One chunk record as built by `read_pdf_as_page_chunks` (lab4.py lines
55-65): the formatted `id`, the chunk text (`document`), and the metadata
fields `source`, `page_number`, `chunk_index`. -/
structure ChunkRec where
  id : String
  document : List Char
  source : String
  page_number : Nat
  chunk_index : Nat
deriving DecidableEq

/-- `read_pdf_as_page_chunks` (lab4.py lines 44-67).  The external PDF
extractor is modelled by its output: `pages` holds, in document order, the
text `page.extract_text() or ""` of each page.  Pages are numbered from 1
(`enumerate(reader.pages, start=1)`); a page whose stripped text is empty
is skipped (`continue`); surviving pages are chunked with the source's
default parameters (1200, 200) and each chunk is wrapped with its id
`f"{filename}::p{page_index}::c{chunk_index}"` and metadata. -/
def read_pdf_as_page_chunks (filename : String) (pages : List (List Char)) : List ChunkRec :=
  ((pages.enumFrom 1).map (fun pe =>
      let page_text := stripWs pe.2
      if page_text = [] then []
      else
        ((chunk_text page_text 1200 200).enum.map (fun ce =>
          ⟨filename ++ "::p" ++ toString pe.1 ++ "::c" ++ toString ce.1,
           ce.2, filename, pe.1, ce.1⟩)))).flatten

/-- One retrieved chunk as assembled by `retrieve_relevant_chunks`
(lab4.py lines 127-136): the dict with keys `source`, `page_number`,
`chunk_text`, `distance`.  The distance is carried opaquely by the code,
so its carrier (`ℚ` here) only has to host the query's dissimilarity
scores. -/
structure RChunk where
  source : String
  page_number : Nat
  chunk_text : String
  distance : ℚ
deriving DecidableEq

instance : Inhabited RChunk := ⟨⟨"", 0, "", 0⟩⟩

/-- The block emitted for the chunk at 1-based position `idx`
(lab4.py lines 148-151). -/
def contextBlock (idx : Nat) (c : RChunk) : String :=
  "[Context " ++ toString idx ++ "] Source: " ++ c.source ++
    " (Page " ++ toString c.page_number ++ ")\n" ++ c.chunk_text

/-- The body of the `for idx, chunk in enumerate(chunks, start=1)` loop of
`build_rag_context` (lab4.py lines 144-151): record the source if not yet
seen, append the labeled context block. -/
def brcStep (a : List String × List String) (ic : Nat × RChunk) : List String × List String :=
  (a.1 ++ [contextBlock ic.1 ic.2],
   if ic.2.source ∈ a.2 then a.2 else a.2 ++ [ic.2.source])

/-- `build_rag_context` (lab4.py lines 140-153): one labeled block per
chunk (1-based `enumerate(chunks, start=1)`), a source appended to
`unique_sources` the first time it is seen, blocks joined with a blank
line (`"\n\n".join`). -/
def build_rag_context (chunks : List RChunk) : String × List String :=
  let acc := (chunks.enumFrom 1).foldl brcStep ([], [])
  (String.intercalate ("\n\n") acc.1, acc.2)

/-- Modelled from the spec (§4.4 / §4.5 wording): walk the sequence in
order and record each `source` value the first time it is seen, so the
output lists the distinct sources in first-occurrence order.  `seen` is
the set of already-recorded sources. -/
def distinctAux (seen : List String) : List String → List String
  | [] => []
  | s :: rest =>
    if s ∈ seen then distinctAux seen rest
    else s :: distinctAux (seen ++ [s]) rest

/-- Modelled from the spec: the distinct source names of a sequence, in
first-occurrence order. -/
def distinctFirstOccurrence (l : List String) : List String :=
  distinctAux [] l

/-- The fixed corpus of lab4.py lines 16-24. -/
def PDF_FILENAMES : List String :=
  ["IST 195 Syllabus - Information Technologies.pdf",
   "IST 256 Syllabus - Intro to Python for the Information Profession.pdf",
   "IST 314 Syllabus - Interacting with AI.pdf",
   "IST 343 Syllabus - Data in Society.pdf",
   "IST 387 Syllabus - Introduction to Applied Data Science.pdf",
   "IST 418 Syllabus - Big Data Analytics.pdf",
   "IST 488 Syllabus - Building Human-Centered AI Applications.pdf"]

/-- The ingestion loop of `create_lab4_vector_db` (lab4.py lines 88-98),
factored over an arbitrary batch of filenames.  The filesystem (and the
PDF extractor behind it) is modelled as `fs : String → Option (List (List
Char))`: `none` means the file is missing (`not pdf_path.exists()`), and
`some pages` gives the per-page extracted text.  A missing file adds the
warning `st.warning(f"Skipping missing file: {filename}")` and the loop
continues; a present file contributes its chunks, in batch order. -/
def gatherBatch (fs : String → Option (List (List Char))) : List String → List String × List ChunkRec
  | [] => ([], [])
  | filename :: rest =>
    match fs filename with
    | none =>
      let r := gatherBatch fs rest
      (("Skipping missing file: " ++ filename) :: r.1, r.2)
    | some pages =>
      let r := gatherBatch fs rest
      (r.1, read_pdf_as_page_chunks filename pages ++ r.2)

/-- The vector-store collection: its stored entries.  `count()` is the
number of entries and `add` appends the gathered records (the source's
three parallel lists `ids`, `documents`, `metadatas` are the fields of
`ChunkRec`). -/
structure Collection where
  entries : List ChunkRec
deriving DecidableEq

/-- The population part of `create_lab4_vector_db` (lab4.py lines 83-103)
as a state transition on the collection.  Returns the new collection, the
number of bulk `collection.add` calls issued (0 or 1), and the warnings
emitted.  Population only happens when `collection.count() == 0`, and the
bulk insert only happens when the gathered `documents` list is non-empty
(`if documents:`). -/
def create_lab4_vector_db (fs : String → Option (List (List Char))) (c : Collection) :
    Collection × Nat × List String :=
  if c.entries.length = 0 then
    let gathered := gatherBatch fs PDF_FILENAMES
    if gathered.2 = [] then (c, 0, gathered.1)
    else (⟨c.entries ++ gathered.2⟩, 1, gathered.1)
  else (c, 0, [])

/-! ### Lemmas about the chunking loop -/

lemma step_pos (cs ov : Nat) : 0 < max (cs - ov) 1 :=
  Nat.lt_of_lt_of_le Nat.zero_lt_one (Nat.le_max_right _ _)

lemma step_le_chunk_size (cs ov : Nat) (hcs : 0 < cs) : max (cs - ov) 1 ≤ cs := by
  omega

/-- The result of the chunking loop does not depend on the fuel, as long as
the fuel is at least `text.length - start`: the loop terminates because
every iteration advances `start` by `step ≥ 1`. -/
lemma chunkLoop_stable (text : List Char) (cs step : Nat) (hs : 0 < step) :
    ∀ f f' start, text.length ≤ start + f → text.length ≤ start + f' →
      chunkLoop text cs step f start = chunkLoop text cs step f' start := by
  intro f
  induction f with
  | zero =>
    intro f' start h _
    cases f' with
    | zero => rfl
    | succ f' =>
      have hlt : ¬ start < text.length := by omega
      simp [chunkLoop, hlt]
  | succ f ih =>
    intro f' start h h'
    cases f' with
    | zero =>
      have hlt : ¬ start < text.length := by omega
      simp [chunkLoop, hlt]
    | succ f' =>
      by_cases hlt : start < text.length
      · simp only [chunkLoop, hlt, if_true]
        rw [ih f' (start + step) (by omega) (by omega)]
      · simp [chunkLoop, hlt]

/-- Step identity for the ceiling division counting the windows emitted
from a text of `a` remaining characters. -/
lemma ceil_div_step (step a : Nat) (hs : 0 < step) (ha : 0 < a) :
    (a + step - 1) / step = ((a - step) + step - 1) / step + 1 := by
  rcases Nat.lt_or_ge step a with h | h
  · have e1 : a + step - 1 = (a - 1) + step := by omega
    have e2 : a - step + step - 1 = (a - step - 1) + step := by omega
    rw [e1, e2, Nat.add_div_right _ hs, Nat.add_div_right _ hs]
    have e3 : a - 1 = (a - step - 1) + step := by omega
    rw [e3, Nat.add_div_right _ hs]
  · have h0 : a - step = 0 := by omega
    have h1 : 1 ≤ (a + step - 1) / step := (Nat.one_le_div_iff hs).mpr (by omega)
    have h2 : (a + step - 1) / step < 2 := (Nat.div_lt_iff_lt_mul hs).mpr (by omega)
    have h3 : (0 + step - 1) / step = 0 := Nat.div_eq_of_lt (by omega)
    rw [h0, h3]
    omega

/-- Closed form of the chunking loop: the windows are
`text[start + k*step : start + k*step + csize]` for
`k = 0, 1, ...` while the window start stays below `text.length`. -/
lemma chunkLoop_eq_range_map (text : List Char) (cs step : Nat) (hs : 0 < step) :
    ∀ fuel start, text.length ≤ start + fuel →
      chunkLoop text cs step fuel start =
        (List.range ((text.length - start + step - 1) / step)).map
          (fun k => (text.drop (start + k * step)).take cs) := by
  intro fuel
  induction fuel with
  | zero =>
    intro start h
    have h0 : text.length - start = 0 := by omega
    have h1 : (text.length - start + step - 1) / step = 0 := by
      rw [h0]; exact Nat.div_eq_of_lt (by omega)
    rw [h1]
    rfl
  | succ fuel ih =>
    intro start h
    by_cases hlt : start < text.length
    · have hcount : (text.length - start + step - 1) / step
          = ((text.length - (start + step)) + step - 1) / step + 1 := by
        have hc := ceil_div_step step (text.length - start) hs (by omega)
        have e : text.length - start - step = text.length - (start + step) := by omega
        rw [e] at hc
        exact hc
      rw [hcount, List.range_succ_eq_map]
      simp only [chunkLoop, hlt, if_true, List.map_cons, List.map_map]
      refine congrArg₂ List.cons (by simp) ?_
      rw [ih (start + step) (by omega)]
      refine List.map_congr_left (fun k _ => ?_)
      simp only [Function.comp_apply]
      have e : start + step + k * step = start + (k + 1) * step := by ring
      rw [e]
    · have h0 : text.length - start = 0 := by omega
      have h1 : (text.length - start + step - 1) / step = 0 := by
        rw [h0]; exact Nat.div_eq_of_lt (by omega)
      rw [h1]
      simp [chunkLoop, hlt]

/-- `chunk_text` on text that is non-empty after normalization: the closed
form of the emitted windows. -/
lemma chunk_text_eq_range_map (text : List Char) (cs ov : Nat)
    (h : normalizeWs text ≠ []) :
    chunk_text text cs ov =
      (List.range
          (((normalizeWs text).length + max (cs - ov) 1 - 1) / max (cs - ov) 1)).map
        (fun k => ((normalizeWs text).drop (k * max (cs - ov) 1)).take cs) := by
  unfold chunk_text
  rw [if_neg h]
  rw [chunkLoop_eq_range_map (normalizeWs text) cs (max (cs - ov) 1) (step_pos cs ov)
      (normalizeWs text).length 0 (by omega)]
  simp

/-- Dropping the `csize - step` overlap characters from every window of
the loop and concatenating yields the text from `start + (csize - step)`
on: each window continues exactly where the previous one ended. -/
lemma chunkLoop_drop_flatten (text : List Char) (cs step : Nat)
    (hs : 0 < step) (hsc : step ≤ cs) :
    ∀ fuel start, text.length ≤ start + fuel →
      ((chunkLoop text cs step fuel start).map (List.drop (cs - step))).flatten
        = text.drop (start + (cs - step)) := by
  intro fuel
  induction fuel with
  | zero =>
    intro start h
    have : text.length ≤ start + (cs - step) := by omega
    simp [chunkLoop, List.drop_eq_nil_of_le this]
  | succ fuel ih =>
    intro start h
    by_cases hlt : start < text.length
    · simp only [chunkLoop, hlt, if_true, List.map_cons, List.flatten_cons]
      rw [ih (start + step) (by omega)]
      rw [List.drop_take]
      have e1 : cs - (cs - step) = step := by omega
      have hy : List.drop (cs - step) (List.drop start text)
          = List.drop (start + (cs - step)) text := by
        rw [List.drop_drop]
      have e2 : start + step + (cs - step) = (start + (cs - step)) + step := by omega
      rw [e1, hy, e2]
      exact List.drop_take_append_drop text (start + (cs - step)) step
    · have hnil : text.length ≤ start + (cs - step) := by omega
      simp [chunkLoop, hlt, List.drop_eq_nil_of_le hnil]

/-- Reassembly: the first chunk, followed by every later chunk with its
overlap-duplicated first `chunk_size - step` characters removed,
concatenates back to the normalized text. -/
lemma chunk_text_reassemble (text : List Char) (cs ov : Nat) (hcs : 0 < cs) :
    (chunk_text text cs ov).headD [] ++
      (((chunk_text text cs ov).tail).map (List.drop (cs - max (cs - ov) 1))).flatten
      = normalizeWs text := by
  have hs : 0 < max (cs - ov) 1 := step_pos cs ov
  have hsc : max (cs - ov) 1 ≤ cs := step_le_chunk_size cs ov hcs
  unfold chunk_text
  by_cases hnil : normalizeWs text = []
  · simp [hnil]
  · rw [if_neg hnil]
    have hlen : 0 < (normalizeWs text).length := List.length_pos.mpr hnil
    obtain ⟨f, hf⟩ : ∃ f, (normalizeWs text).length = f + 1 :=
      ⟨(normalizeWs text).length - 1, by omega⟩
    have hunf : chunkLoop (normalizeWs text) cs (max (cs - ov) 1) (f + 1) 0
        = ((normalizeWs text).drop 0).take cs
            :: chunkLoop (normalizeWs text) cs (max (cs - ov) 1) f (0 + max (cs - ov) 1) := by
      simp only [chunkLoop]
      rw [if_pos hlen]
    rw [hf, hunf, List.headD_cons, List.tail_cons]
    rw [chunkLoop_drop_flatten (normalizeWs text) cs (max (cs - ov) 1) hs hsc f
        (0 + max (cs - ov) 1) (by omega)]
    have e : 0 + max (cs - ov) 1 + (cs - max (cs - ov) 1) = cs := by omega
    rw [e]
    simp [List.take_append_drop cs (normalizeWs text)]

/-- The loop emits at most one window per unit of fuel. -/
lemma chunkLoop_length_le (text : List Char) (cs step : Nat) :
    ∀ fuel start, (chunkLoop text cs step fuel start).length ≤ fuel := by
  intro fuel
  induction fuel with
  | zero => intro start; simp [chunkLoop]
  | succ fuel ih =>
    intro start
    by_cases hlt : start < text.length
    · simp only [chunkLoop, hlt, if_true, List.length_cons]
      exact Nat.succ_le_succ (ih (start + step))
    · simp [chunkLoop, hlt]

/-- Every window the loop emits is non-empty: a window is only emitted
while `start < text.length`, and `chunk_size > 0`. -/
lemma chunkLoop_mem_ne_nil (text : List Char) (cs step : Nat) (hcs : 0 < cs) :
    ∀ fuel start c, c ∈ chunkLoop text cs step fuel start → c ≠ [] := by
  intro fuel
  induction fuel with
  | zero => intro start c hc; simp [chunkLoop] at hc
  | succ fuel ih =>
    intro start c hc
    by_cases hlt : start < text.length
    · simp only [chunkLoop, hlt, if_true, List.mem_cons] at hc
      rcases hc with hc | hc
      · subst hc
        have hpos : 0 < ((text.drop start).take cs).length := by
          simp only [List.length_take, List.length_drop]
          omega
        exact List.ne_nil_of_length_pos hpos
      · exact ih (start + step) c hc
    · simp [chunkLoop, hlt] at hc

/-- All-whitespace input has no tokens: the `foldr` in `splitWs` never
starts a token. -/
lemma splitWs_eq_nil_of_all_ws (l : List Char)
    (h : ∀ c ∈ l, isPyWhitespace c = true) : splitWs l = [] := by
  have haux : l.foldr
      (fun c (a : List (List Char) × List Char) =>
        if isPyWhitespace c then
          (if a.2 = [] then a.1 else a.2 :: a.1, [])
        else
          (a.1, c :: a.2))
      ([], []) = ([], []) := by
    induction l with
    | nil => rfl
    | cons c rest ih =>
      rw [List.foldr_cons, ih (fun x hx => h x (List.mem_cons_of_mem c hx))]
      simp [h c (List.mem_cons_self c rest)]
  unfold splitWs
  rw [haux]
  rfl

/-- Empty or all-whitespace input normalizes to the empty text. -/
lemma normalizeWs_eq_nil_of_all_ws (l : List Char)
    (h : ∀ c ∈ l, isPyWhitespace c = true) : normalizeWs l = [] := by
  unfold normalizeWs
  rw [splitWs_eq_nil_of_all_ws l h]
  rfl

/-! ### Lemmas about enumeration, deduplication and the batch loop -/

lemma mem_enumFrom_facts {α : Type} {l : List α} {n i : Nat} {a : α}
    (h : (i, a) ∈ l.enumFrom n) : n ≤ i ∧ i - n < l.length ∧ l[i - n]? = some a := by
  induction l generalizing n with
  | nil => simp [List.enumFrom] at h
  | cons x rest ih =>
    rw [List.enumFrom] at h
    rcases List.mem_cons.mp h with h1 | h1
    · injection h1 with h1a h1b
      subst h1a
      subst h1b
      simp
    · obtain ⟨hn, hlt, hget⟩ := ih h1
      refine ⟨by omega, by simp; omega, ?_⟩
      have e : i - n = (i - (n + 1)) + 1 := by omega
      rw [e]
      simpa using hget

lemma enumFrom_map_eq_range_map {α β : Type} (d : α) (f : Nat × α → β) :
    ∀ (l : List α) (n : Nat),
      (l.enumFrom n).map f
        = (List.range l.length).map (fun i => f (n + i, l.getD i d)) := by
  intro l
  induction l with
  | nil => intro n; rfl
  | cons a rest ih =>
    intro n
    rw [show List.enumFrom n (a :: rest) = (n, a) :: List.enumFrom (n + 1) rest from rfl]
    rw [List.map_cons, ih (n + 1), List.length_cons, List.range_succ_eq_map,
      List.map_cons, List.map_map]
    refine congrArg₂ List.cons (by simp) ?_
    refine List.map_congr_left (fun i _ => ?_)
    have e1 : n + 1 + i = n + (i + 1) := by omega
    simp only [Function.comp_apply, List.getD_cons_succ]
    rw [e1]

lemma mem_distinctAux {x : String} :
    ∀ (l : List String) (seen : List String), x ∈ distinctAux seen l → x ∉ seen ∧ x ∈ l := by
  intro l
  induction l with
  | nil => intro seen h; rw [distinctAux] at h; simp at h
  | cons s rest ih =>
    intro seen h
    rw [distinctAux] at h
    by_cases hm : s ∈ seen
    · rw [if_pos hm] at h
      obtain ⟨h1, h2⟩ := ih seen h
      exact ⟨h1, List.mem_cons_of_mem s h2⟩
    · rw [if_neg hm] at h
      rcases List.mem_cons.mp h with rfl | h1
      · exact ⟨hm, List.mem_cons_self _ _⟩
      · obtain ⟨h1', h2⟩ := ih (seen ++ [s]) h1
        refine ⟨fun hx => h1' (List.mem_append_left _ hx), List.mem_cons_of_mem s h2⟩

lemma distinctAux_nodup : ∀ (l : List String) (seen : List String), (distinctAux seen l).Nodup := by
  intro l
  induction l with
  | nil => intro seen; rw [distinctAux]; exact List.nodup_nil
  | cons s rest ih =>
    intro seen
    rw [distinctAux]
    by_cases hm : s ∈ seen
    · rw [if_pos hm]; exact ih seen
    · rw [if_neg hm]
      refine List.nodup_cons.mpr ⟨fun hmem => ?_, ih (seen ++ [s])⟩
      exact (mem_distinctAux rest (seen ++ [s]) hmem).1 (List.mem_append_right _ (by simp))

lemma distinctAux_sublist :
    ∀ (l : List String) (seen : List String), List.Sublist (distinctAux seen l) l := by
  intro l
  induction l with
  | nil => intro seen; rw [distinctAux]
  | cons s rest ih =>
    intro seen
    rw [distinctAux]
    by_cases hm : s ∈ seen
    · rw [if_pos hm]; exact (ih seen).cons s
    · rw [if_neg hm]; exact (ih (seen ++ [s])).cons₂ s

lemma distinctAux_covers {x : String} :
    ∀ (l : List String) (seen : List String), x ∈ l → x ∈ seen ∨ x ∈ distinctAux seen l := by
  intro l
  induction l with
  | nil => intro seen h; simp at h
  | cons s rest ih =>
    intro seen h
    rw [distinctAux]
    by_cases hm : s ∈ seen
    · rw [if_pos hm]
      rcases List.mem_cons.mp h with rfl | h1
      · exact Or.inl hm
      · exact ih seen h1
    · rw [if_neg hm]
      rcases List.mem_cons.mp h with rfl | h1
      · exact Or.inr (List.mem_cons_self _ _)
      · rcases ih (seen ++ [s]) h1 with h2 | h2
        · rcases List.mem_append.mp h2 with h3 | h3
          · exact Or.inl h3
          · simp at h3
            exact Or.inr (h3 ▸ List.mem_cons_self _ _)
        · exact Or.inr (List.mem_cons_of_mem s h2)

/-- The accumulating fold of `build_rag_context`, in closed form: blocks
are appended in order, and sources are deduplicated keeping first
occurrences. -/
lemma brc_foldl_eq :
    ∀ (l : List RChunk) (n : Nat) (b u : List String),
      (l.enumFrom n).foldl brcStep (b, u)
        = (b ++ (l.enumFrom n).map (fun ic => contextBlock ic.1 ic.2),
           u ++ distinctAux u (l.map RChunk.source)) := by
  intro l
  induction l with
  | nil => intro n b u; simp [distinctAux]
  | cons c rest ih =>
    intro n b u
    rw [show List.enumFrom n (c :: rest) = (n, c) :: List.enumFrom (n + 1) rest from rfl]
    rw [List.foldl_cons, List.map_cons, List.map_cons, distinctAux]
    by_cases hm : c.source ∈ u
    · rw [if_pos hm]
      rw [show brcStep (b, u) (n, c) = (b ++ [contextBlock n c], u) from by
        simp [brcStep, hm]]
      rw [ih (n + 1) (b ++ [contextBlock n c]) u]
      simp
    · rw [if_neg hm]
      rw [show brcStep (b, u) (n, c) = (b ++ [contextBlock n c], u ++ [c.source]) from by
        simp [brcStep, hm]]
      rw [ih (n + 1) (b ++ [contextBlock n c]) (u ++ [c.source])]
      simp

/-- The ingestion loop distributes over batch concatenation: processing a
batch is processing its parts and appending warnings and chunks. -/
lemma gatherBatch_append (fs : String → Option (List (List Char))) :
    ∀ (l₁ l₂ : List String),
      gatherBatch fs (l₁ ++ l₂)
        = ((gatherBatch fs l₁).1 ++ (gatherBatch fs l₂).1,
           (gatherBatch fs l₁).2 ++ (gatherBatch fs l₂).2) := by
  intro l₁
  induction l₁ with
  | nil => intro l₂; simp [gatherBatch]
  | cons f rest ih =>
    intro l₂
    rw [List.cons_append, gatherBatch, gatherBatch]
    cases fs f with
    | none => simp [ih l₂]
    | some pages => simp [ih l₂]

/-! ### Claim theorems -/

/-- C3: for text that is non-empty after normalization and
`chunk_size > overlap ≥ 0` (step `= chunk_size - overlap`), `chunk_text`
returns the windows `[start, start + chunk_size)` clipped at the string
end for `start = 0, step, 2*step, ...` while `start < len`; consecutive
windows share exactly `chunk_size - step` characters (the suffix of an
unclipped window past its first `step` characters reappears as the start
of the next window); the final window's end equals the normalized text
length; and concretely `chunk_text "abcdefghijkl" 10 9` yields the 12
windows starting at offsets 0..11. -/
theorem chunk_text_window_layout (text : List Char) (cs ov : Nat)
    (hcs : 0 < cs) (hov : ov < cs) (hne : normalizeWs text ≠ []) :
    chunk_text text cs ov
      = (List.range
            (((normalizeWs text).length + (cs - ov) - 1) / (cs - ov))).map
          (fun k => ((normalizeWs text).drop (k * (cs - ov))).take cs) ∧
    (∀ k, (k + 1) * (cs - ov) < (normalizeWs text).length →
      (∃ t, (((normalizeWs text).drop (k * (cs - ov))).take cs).drop (cs - ov) ++ t
          = ((normalizeWs text).drop ((k + 1) * (cs - ov))).take cs) ∧
      (k * (cs - ov) + cs ≤ (normalizeWs text).length →
        ((((normalizeWs text).drop (k * (cs - ov))).take cs).drop (cs - ov)).length
          = cs - (cs - ov))) ∧
    ((((normalizeWs text).length + (cs - ov) - 1) / (cs - ov) - 1) * (cs - ov)
        + (((normalizeWs text).drop
              ((((normalizeWs text).length + (cs - ov) - 1) / (cs - ov) - 1)
                * (cs - ov))).take cs).length
      = (normalizeWs text).length) ∧
    chunk_text ("abcdefghijkl".toList) 10 9
      = ["abcdefghij".toList, "bcdefghijk".toList, "cdefghijkl".toList, "defghijkl".toList,
         "efghijkl".toList, "fghijkl".toList, "ghijkl".toList, "hijkl".toList, "ijkl".toList,
         "jkl".toList, "kl".toList, "l".toList] := by
  have hs : 0 < cs - ov := by omega
  have hmax : max (cs - ov) 1 = cs - ov := by omega
  have hlen : 0 < (normalizeWs text).length := List.length_pos.mpr hne
  refine ⟨?_, ?_, ?_, by decide⟩
  · have h1 := chunk_text_eq_range_map text cs ov hne
    rw [hmax] at h1
    exact h1
  · intro k hk
    constructor
    · refine ⟨(((normalizeWs text).drop ((k + 1) * (cs - ov))).drop (cs - (cs - ov))).take
          (cs - (cs - (cs - ov))), ?_⟩
      have h1 : (((normalizeWs text).drop (k * (cs - ov))).take cs).drop (cs - ov)
          = ((normalizeWs text).drop ((k + 1) * (cs - ov))).take (cs - (cs - ov)) := by
        rw [List.drop_take, List.drop_drop]
        have e : k * (cs - ov) + (cs - ov) = (k + 1) * (cs - ov) := by ring
        rw [e]
      rw [h1, ← List.take_add]
      have e2 : cs - (cs - ov) + (cs - (cs - (cs - ov))) = cs := by omega
      rw [e2]
    · intro hfit
      simp only [List.length_drop, List.length_take, List.length_drop]
      omega
  · simp only [List.length_take, List.length_drop]
    have hd := Nat.div_add_mod ((normalizeWs text).length + (cs - ov) - 1) (cs - ov)
    have hr : ((normalizeWs text).length + (cs - ov) - 1) % (cs - ov) < cs - ov :=
      Nat.mod_lt _ hs
    have hq1 : 1 ≤ ((normalizeWs text).length + (cs - ov) - 1) / (cs - ov) :=
      (Nat.one_le_div_iff hs).mpr (by omega)
    generalize hq : ((normalizeWs text).length + (cs - ov) - 1) / (cs - ov) = q at hd hq1 ⊢
    generalize hrm : ((normalizeWs text).length + (cs - ov) - 1) % (cs - ov) = r at hd hr
    obtain ⟨q', rfl⟩ : ∃ q', q = q' + 1 := ⟨q - 1, by omega⟩
    have e1 : (q' + 1 - 1) * (cs - ov) = q' * (cs - ov) := by
      congr 1
    have e2 : (cs - ov) * (q' + 1) = q' * (cs - ov) + (cs - ov) := by ring
    rw [e1]
    rw [e2] at hd
    generalize q' * (cs - ov) = X at hd ⊢
    omega

/-- Witness for `chunk_text_window_layout` at `"ab cd"`, `chunk_size = 3`,
`overlap = 1`. -/
theorem chunk_text_window_layout_witness :
    (0 < 3 ∧ 1 < 3 ∧ normalizeWs ("ab cd".toList) ≠ []) ∧
    chunk_text ("ab cd".toList) 3 1
      = (List.range
            (((normalizeWs ("ab cd".toList)).length + (3 - 1) - 1) / (3 - 1))).map
          (fun k => ((normalizeWs ("ab cd".toList)).drop (k * (3 - 1))).take 3) :=
  ⟨⟨by decide, by decide, by decide⟩,
   (chunk_text_window_layout ("ab cd".toList) 3 1 (by decide) (by decide) (by decide)).1⟩

/-- C6: concatenating the chunks of a page in order, after removing from
every chunk but the first its overlap-duplicated first
`chunk_size - step` characters, reconstructs the normalized page text. -/
theorem chunk_text_roundtrip (text : List Char) (cs ov : Nat) (hcs : 0 < cs) :
    (chunk_text text cs ov).headD [] ++
      (((chunk_text text cs ov).tail).map (List.drop (cs - max (cs - ov) 1))).flatten
      = normalizeWs text :=
  chunk_text_reassemble text cs ov hcs

/-- Witness for `chunk_text_roundtrip` at `"abcdef"`, `chunk_size = 4`,
`overlap = 2`. -/
theorem chunk_text_roundtrip_witness :
    0 < 4 ∧
    ((chunk_text ("abcdef".toList) 4 2).headD [] ++
        (((chunk_text ("abcdef".toList) 4 2).tail).map
          (List.drop (4 - max (4 - 2) 1))).flatten
      = normalizeWs ("abcdef".toList)) :=
  ⟨by decide, chunk_text_roundtrip ("abcdef".toList) 4 2 (by decide)⟩

/-- C7: for every `chunk_size > 0` and any `overlap` (including
`overlap ≥ chunk_size`), `chunk_text` terminates — the loop runs at most
`len` iterations because the effective step `max(chunk_size - overlap, 1)`
is at least 1, so any fuel of at least `len` gives the same, stable result
— and every emitted chunk is non-empty. -/
theorem chunk_text_total_nonempty (text : List Char) (cs ov : Nat) (hcs : 0 < cs) :
    (∀ c ∈ chunk_text text cs ov, c ≠ []) ∧
    (chunk_text text cs ov).length ≤ (normalizeWs text).length ∧
    (∀ extra : Nat,
      chunkLoop (normalizeWs text) cs (max (cs - ov) 1)
          ((normalizeWs text).length + extra) 0
        = chunk_text text cs ov) := by
  refine ⟨?_, ?_, ?_⟩
  · intro c hc
    unfold chunk_text at hc
    by_cases hnil : normalizeWs text = []
    · rw [if_pos hnil] at hc
      simp at hc
    · rw [if_neg hnil] at hc
      exact chunkLoop_mem_ne_nil (normalizeWs text) cs (max (cs - ov) 1) hcs
        (normalizeWs text).length 0 c hc
  · unfold chunk_text
    by_cases hnil : normalizeWs text = []
    · rw [if_pos hnil]
      simp
    · rw [if_neg hnil]
      exact chunkLoop_length_le (normalizeWs text) cs (max (cs - ov) 1)
        (normalizeWs text).length 0
  · intro extra
    unfold chunk_text
    by_cases hnil : normalizeWs text = []
    · rw [if_pos hnil]
      have h0 : (normalizeWs text).length = 0 := by rw [hnil]; rfl
      rw [chunkLoop_stable (normalizeWs text) cs (max (cs - ov) 1) (step_pos cs ov)
        ((normalizeWs text).length + extra) 0 0 (by omega) (by omega)]
      rfl
    · rw [if_neg hnil]
      exact chunkLoop_stable (normalizeWs text) cs (max (cs - ov) 1) (step_pos cs ov)
        ((normalizeWs text).length + extra) (normalizeWs text).length 0 (by omega) (by omega)

/-- Witness for `chunk_text_total_nonempty` at `"hello world"`,
`chunk_size = 4`, `overlap = 9` (overlap exceeding the chunk size). -/
theorem chunk_text_total_nonempty_witness :
    0 < 4 ∧
    (chunk_text ("hello world".toList) 4 9).length
      ≤ (normalizeWs ("hello world".toList)).length :=
  ⟨by decide, (chunk_text_total_nonempty ("hello world".toList) 4 9 (by decide)).2.1⟩

/-- C8: input that is empty or all-whitespace yields an empty chunk
sequence, for every parameter choice. -/
theorem chunk_text_whitespace_empty (text : List Char) (cs ov : Nat)
    (h : ∀ c ∈ text, isPyWhitespace c = true) :
    chunk_text text cs ov = [] := by
  unfold chunk_text
  rw [normalizeWs_eq_nil_of_all_ws text h]
  rfl

/-- Witness for `chunk_text_whitespace_empty` at `""` and `"   "` with the
source's default parameters. -/
theorem chunk_text_whitespace_empty_witness :
    (∀ c ∈ ("   ".toList), isPyWhitespace c = true) ∧
    chunk_text ("   ".toList) 1200 200 = [] ∧
    chunk_text ("".toList) 1200 200 = [] :=
  ⟨by decide, chunk_text_whitespace_empty ("   ".toList) 1200 200 (by decide),
   chunk_text_whitespace_empty ("".toList) 1200 200 (by decide)⟩

/-- C4: every chunk record produced by ingestion carries the source
filename, the id `{filename}::p{page_number}::c{chunk_index}`, a 1-based
page number that indexes the page (in document order, no renumbering)
whose stripped text is non-whitespace, and a 0-based chunk index into
that page's chunk sequence; a page whose extracted text strips to empty
contributes no chunk; and a 3-page document whose page 2 extracts to
whitespace yields chunks exactly for pages 1 and 3. -/
theorem read_pdf_page_provenance (filename : String) (pages : List (List Char)) :
    (∀ r ∈ read_pdf_as_page_chunks filename pages,
        r.source = filename ∧
        r.id = filename ++ "::p" ++ toString r.page_number
            ++ "::c" ++ toString r.chunk_index ∧
        1 ≤ r.page_number ∧ r.page_number ≤ pages.length ∧
        ∃ p, pages[r.page_number - 1]? = some p ∧ stripWs p ≠ [] ∧
          (chunk_text (stripWs p) 1200 200)[r.chunk_index]? = some r.document) ∧
    (∀ i p, pages[i]? = some p → stripWs p = [] →
        ∀ r ∈ read_pdf_as_page_chunks filename pages, r.page_number ≠ i + 1) ∧
    read_pdf_as_page_chunks ("doc.pdf") ["page one".toList, "   ".toList, "page three".toList]
      = [⟨"doc.pdf::p1::c0", "page one".toList, "doc.pdf", 1, 0⟩,
         ⟨"doc.pdf::p3::c0", "page three".toList, "doc.pdf", 3, 0⟩] := by
  have hmain : ∀ r ∈ read_pdf_as_page_chunks filename pages,
      r.source = filename ∧
      r.id = filename ++ "::p" ++ toString r.page_number
          ++ "::c" ++ toString r.chunk_index ∧
      1 ≤ r.page_number ∧ r.page_number ≤ pages.length ∧
      ∃ p, pages[r.page_number - 1]? = some p ∧ stripWs p ≠ [] ∧
        (chunk_text (stripWs p) 1200 200)[r.chunk_index]? = some r.document := by
    intro r hr
    unfold read_pdf_as_page_chunks at hr
    rw [List.mem_flatten] at hr
    obtain ⟨l, hl, hrl⟩ := hr
    rw [List.mem_map] at hl
    obtain ⟨pe, hpe, rfl⟩ := hl
    obtain ⟨pi, p⟩ := pe
    dsimp only at hrl
    by_cases hstrip : stripWs p = []
    · rw [if_pos hstrip] at hrl
      simp at hrl
    · rw [if_neg hstrip] at hrl
      rw [List.mem_map] at hrl
      obtain ⟨ce, hce, rfl⟩ := hrl
      obtain ⟨ci, c⟩ := ce
      have hpf := mem_enumFrom_facts hpe
      unfold List.enum at hce
      have hcf := mem_enumFrom_facts hce
      refine ⟨rfl, rfl, hpf.1, ?_, p, hpf.2.2, hstrip, ?_⟩
      · show pi ≤ pages.length
        have h1 := hpf.1
        have h2 := hpf.2.1
        omega
      · simpa using hcf.2.2
  refine ⟨hmain, ?_, by decide⟩
  intro i p hp hstrip r hr hpn
  obtain ⟨-, -, -, -, p', hp', hstrip', -⟩ := hmain r hr
  rw [hpn] at hp'
  simp only [Nat.add_sub_cancel] at hp'
  rw [hp] at hp'
  injection hp' with hpe
  exact hstrip' (hpe ▸ hstrip)

/-- Witness for `read_pdf_page_provenance`: the first chunk of the 3-page
example document. -/
theorem read_pdf_page_provenance_witness :
    ((⟨"doc.pdf::p1::c0", "page one".toList, "doc.pdf", 1, 0⟩ : ChunkRec) ∈
        read_pdf_as_page_chunks ("doc.pdf")
          ["page one".toList, "   ".toList, "page three".toList]) ∧
    ((⟨"doc.pdf::p1::c0", "page one".toList, "doc.pdf", 1, 0⟩ : ChunkRec).source = "doc.pdf" ∧
     (⟨"doc.pdf::p1::c0", "page one".toList, "doc.pdf", 1, 0⟩ : ChunkRec).id
        = "doc.pdf" ++ "::p"
            ++ toString (⟨"doc.pdf::p1::c0", "page one".toList, "doc.pdf", 1, 0⟩ : ChunkRec).page_number
            ++ "::c"
            ++ toString (⟨"doc.pdf::p1::c0", "page one".toList, "doc.pdf", 1, 0⟩ : ChunkRec).chunk_index ∧
     1 ≤ (⟨"doc.pdf::p1::c0", "page one".toList, "doc.pdf", 1, 0⟩ : ChunkRec).page_number ∧
     (⟨"doc.pdf::p1::c0", "page one".toList, "doc.pdf", 1, 0⟩ : ChunkRec).page_number
        ≤ (["page one".toList, "   ".toList, "page three".toList]).length ∧
     ∃ p, (["page one".toList, "   ".toList, "page three".toList])[
            (⟨"doc.pdf::p1::c0", "page one".toList, "doc.pdf", 1, 0⟩ : ChunkRec).page_number - 1]?
          = some p ∧ stripWs p ≠ [] ∧
        (chunk_text (stripWs p) 1200 200)[
            (⟨"doc.pdf::p1::c0", "page one".toList, "doc.pdf", 1, 0⟩ : ChunkRec).chunk_index]?
          = some (⟨"doc.pdf::p1::c0", "page one".toList, "doc.pdf", 1, 0⟩ : ChunkRec).document) :=
  ⟨by decide,
   (read_pdf_page_provenance ("doc.pdf")
      ["page one".toList, "   ".toList, "page three".toList]).1 _ (by decide)⟩

/-- C5: the assembled context is one block per chunk in input order, each
with a 1-based `[Context N] Source: ... (Page ...)` header line followed
by the chunk text, blocks joined by a blank line; the returned source list
is the distinct sources in first-occurrence order; and the two-chunk
example produces exactly the specified string and source list. -/
theorem build_rag_context_blocks (chunks : List RChunk) :
    (build_rag_context chunks).1
      = String.intercalate ("\n\n") ((List.range chunks.length).map
          (fun i => contextBlock (1 + i) (chunks.getD i default))) ∧
    (build_rag_context chunks).2 = distinctFirstOccurrence (chunks.map RChunk.source) ∧
    (build_rag_context [⟨"A.pdf", 1, "alpha text", 1⟩, ⟨"B.pdf", 2, "beta text", 2⟩]).1
      = "[Context 1] Source: A.pdf (Page 1)\nalpha text\n\n[Context 2] Source: B.pdf (Page 2)\nbeta text" ∧
    (build_rag_context [⟨"A.pdf", 1, "alpha text", 1⟩, ⟨"B.pdf", 2, "beta text", 2⟩]).2
      = ["A.pdf", "B.pdf"] := by
  refine ⟨?_, ?_, by decide, by decide⟩
  · unfold build_rag_context
    rw [brc_foldl_eq chunks 1 [] []]
    dsimp only
    rw [List.nil_append]
    congr 1
    rw [enumFrom_map_eq_range_map default (fun ic => contextBlock ic.1 ic.2) chunks 1]
  · unfold build_rag_context
    rw [brc_foldl_eq chunks 1 [] []]
    dsimp only
    rw [List.nil_append]
    rfl

/-- Witness for `build_rag_context_blocks`: the source list of the
two-chunk example. -/
theorem build_rag_context_blocks_witness :
    (build_rag_context [⟨"A.pdf", 1, "alpha text", 1⟩, ⟨"B.pdf", 2, "beta text", 2⟩]).2
      = distinctFirstOccurrence
          (([⟨"A.pdf", 1, "alpha text", 1⟩, ⟨"B.pdf", 2, "beta text", 2⟩] : List RChunk).map
            RChunk.source) :=
  (build_rag_context_blocks
    [⟨"A.pdf", 1, "alpha text", 1⟩, ⟨"B.pdf", 2, "beta text", 2⟩]).2.1

/-- A query result of 12 entries spanning 5 distinct sources, listed in
ascending-distance order. -/
def sampleQuery12 : List RChunk :=
  [⟨"S1.pdf", 1, "t1", 1⟩, ⟨"S1.pdf", 2, "t2", 2⟩, ⟨"S2.pdf", 1, "t3", 3⟩,
   ⟨"S1.pdf", 3, "t4", 4⟩, ⟨"S3.pdf", 1, "t5", 5⟩, ⟨"S2.pdf", 2, "t6", 6⟩,
   ⟨"S4.pdf", 1, "t7", 7⟩, ⟨"S3.pdf", 2, "t8", 8⟩, ⟨"S5.pdf", 1, "t9", 9⟩,
   ⟨"S4.pdf", 2, "t10", 10⟩, ⟨"S2.pdf", 3, "t11", 11⟩, ⟨"S1.pdf", 4, "t12", 12⟩]

/-- C1 counterexample: the source-deduplication pass of
`build_rag_context` — the code behind the spec's retrieval ranker — has
no `limit` parameter and never stops early: on 12 entries spanning 5
distinct sources it returns all 5 sources, not 3, and it records no
per-source distance or sample text (its output is the bare source
names). -/
theorem top_distinct_sources_limit_counterexample :
    ((build_rag_context sampleQuery12).2).length = 5 ∧
    ¬ ((build_rag_context sampleQuery12).2).length = 3 := by
  decide

/-- C1 amended: `build_rag_context` walks the entries in their given
order, records a source only the first time it is seen, and returns ALL
distinct sources in first-appearance (nearest-first) order — without any
limit and without recording per-source distances or sample text; on the
12-entry, 5-source input it returns all five sources in first-appearance
order. -/
theorem build_rag_sources_no_limit (chunks : List RChunk) :
    (build_rag_context chunks).2 = distinctFirstOccurrence (chunks.map RChunk.source) ∧
    ((build_rag_context chunks).2).Nodup ∧
    List.Sublist ((build_rag_context chunks).2) (chunks.map RChunk.source) ∧
    (∀ c ∈ chunks, c.source ∈ (build_rag_context chunks).2) ∧
    (build_rag_context sampleQuery12).2
      = ["S1.pdf", "S2.pdf", "S3.pdf", "S4.pdf", "S5.pdf"] := by
  have hsrc : (build_rag_context chunks).2
      = distinctAux [] (chunks.map RChunk.source) := by
    unfold build_rag_context
    rw [brc_foldl_eq chunks 1 [] []]
    dsimp only
    rw [List.nil_append]
  refine ⟨hsrc, ?_, ?_, ?_, by decide⟩
  · rw [hsrc]
    exact distinctAux_nodup (chunks.map RChunk.source) []
  · rw [hsrc]
    exact distinctAux_sublist (chunks.map RChunk.source) []
  · intro c hc
    rw [hsrc]
    rcases distinctAux_covers (chunks.map RChunk.source) []
        (List.mem_map_of_mem RChunk.source hc) with h | h
    · simp at h
    · exact h

/-- Witness for `build_rag_sources_no_limit`: the third entry's source is
among the returned sources. -/
theorem build_rag_sources_no_limit_witness :
    ((⟨"S2.pdf", 1, "t3", 3⟩ : RChunk) ∈ sampleQuery12) ∧
    (⟨"S2.pdf", 1, "t3", 3⟩ : RChunk).source ∈ (build_rag_context sampleQuery12).2 :=
  ⟨by decide, (build_rag_sources_no_limit sampleQuery12).2.2.2.1 _ (by decide)⟩

/-- C2: starting from an empty collection, two sequential invocations of
the population operation with a non-empty gathered corpus perform exactly
one bulk insert in total — the first call inserts, the second finds the
collection non-empty and leaves it unchanged — and more generally any
call on a non-empty collection performs no insert and no rebuild. -/
theorem create_db_populate_once (fs : String → Option (List (List Char)))
    (h : (gatherBatch fs PDF_FILENAMES).2 ≠ []) :
    (create_lab4_vector_db fs ⟨[]⟩).2.1 = 1 ∧
    (create_lab4_vector_db fs (create_lab4_vector_db fs ⟨[]⟩).1).2.1 = 0 ∧
    (create_lab4_vector_db fs ⟨[]⟩).2.1
        + (create_lab4_vector_db fs (create_lab4_vector_db fs ⟨[]⟩).1).2.1 = 1 ∧
    (create_lab4_vector_db fs (create_lab4_vector_db fs ⟨[]⟩).1).1
      = (create_lab4_vector_db fs ⟨[]⟩).1 ∧
    (∀ c : Collection, c.entries ≠ [] → create_lab4_vector_db fs c = (c, 0, [])) := by
  have hsnd : ∀ c : Collection, c.entries ≠ [] → create_lab4_vector_db fs c = (c, 0, []) := by
    intro c hc
    unfold create_lab4_vector_db
    rw [if_neg (fun h0 => hc (List.length_eq_zero.mp h0))]
  have hfst : create_lab4_vector_db fs ⟨[]⟩
      = (⟨[] ++ (gatherBatch fs PDF_FILENAMES).2⟩, 1, (gatherBatch fs PDF_FILENAMES).1) := by
    unfold create_lab4_vector_db
    have hc0 : (⟨[]⟩ : Collection).entries.length = 0 := rfl
    rw [if_pos hc0, if_neg h]
  have hne : (⟨[] ++ (gatherBatch fs PDF_FILENAMES).2⟩ : Collection).entries ≠ [] := by
    simpa using h
  refine ⟨by rw [hfst], ?_, ?_, ?_, hsnd⟩
  · rw [hfst, hsnd _ hne]
  · rw [hfst, hsnd _ hne]
    rfl
  · rw [hfst, hsnd _ hne]

/-- A filesystem holding only the first corpus file, with one extracted
page. -/
def fsOnly195 : String → Option (List (List Char)) :=
  fun n => if n = "IST 195 Syllabus - Information Technologies.pdf"
    then some [("hello world".toList)] else none

/-- Witness for `create_db_populate_once` on `fsOnly195`. -/
theorem create_db_populate_once_witness :
    ((gatherBatch fsOnly195 PDF_FILENAMES).2 ≠ []) ∧
    (create_lab4_vector_db fsOnly195 ⟨[]⟩).2.1 = 1 ∧
    (create_lab4_vector_db fsOnly195 (create_lab4_vector_db fsOnly195 ⟨[]⟩).1).2.1 = 0 :=
  ⟨by decide, (create_db_populate_once fsOnly195 (by decide)).1,
   (create_db_populate_once fsOnly195 (by decide)).2.1⟩

/-- C9: a missing file in the middle of a batch contributes exactly one
warning naming it (`Skipping missing file: {filename}`), and the files
after it are still ingested: the batch's warnings are the two halves'
warnings around the new one, and its chunks are the two halves' chunks. -/
theorem gatherBatch_missing_file_skipped (files₁ files₂ : List String) (name : String)
    (fs : String → Option (List (List Char))) (h : fs name = none) :
    (gatherBatch fs (files₁ ++ name :: files₂)).1
      = (gatherBatch fs files₁).1
          ++ ("Skipping missing file: " ++ name) :: (gatherBatch fs files₂).1 ∧
    (gatherBatch fs (files₁ ++ name :: files₂)).2
      = (gatherBatch fs files₁).2 ++ (gatherBatch fs files₂).2 := by
  have hmid : gatherBatch fs (name :: files₂)
      = (("Skipping missing file: " ++ name) :: (gatherBatch fs files₂).1,
         (gatherBatch fs files₂).2) := by
    rw [gatherBatch, h]
  rw [gatherBatch_append fs files₁ (name :: files₂), hmid]
  exact ⟨rfl, rfl⟩

/-- A filesystem where exactly the file `gone.pdf` is missing. -/
def fsDemo : String → Option (List (List Char)) :=
  fun n => if n = "gone.pdf" then none else some [("page text".toList)]

/-- Witness for `gatherBatch_missing_file_skipped` on a three-file batch
whose middle file is missing. -/
theorem gatherBatch_missing_file_skipped_witness :
    fsDemo ("gone.pdf") = none ∧
    (gatherBatch fsDemo (["a.pdf"] ++ "gone.pdf" :: ["b.pdf"])).1
      = (gatherBatch fsDemo ["a.pdf"]).1
          ++ ("Skipping missing file: " ++ "gone.pdf") :: (gatherBatch fsDemo ["b.pdf"]).1 :=
  ⟨by decide,
   (gatherBatch_missing_file_skipped ["a.pdf"] ["b.pdf"] "gone.pdf" fsDemo (by decide)).1⟩

/-- C10: when the gathered corpus is empty (every file missing or every
page whitespace), population issues no bulk insert, the collection stays
empty (count 0), and the build-once guard does not latch: a second
invocation re-enters the population branch — it re-runs the gathering and
re-emits its warnings — instead of returning early. -/
theorem create_db_empty_corpus_no_latch (fs : String → Option (List (List Char)))
    (h : (gatherBatch fs PDF_FILENAMES).2 = []) :
    create_lab4_vector_db fs ⟨[]⟩ = (⟨[]⟩, 0, (gatherBatch fs PDF_FILENAMES).1) ∧
    ((create_lab4_vector_db fs ⟨[]⟩).1).entries.length = 0 ∧
    create_lab4_vector_db fs (create_lab4_vector_db fs ⟨[]⟩).1
      = (⟨[]⟩, 0, (gatherBatch fs PDF_FILENAMES).1) := by
  have h1 : create_lab4_vector_db fs ⟨[]⟩ = (⟨[]⟩, 0, (gatherBatch fs PDF_FILENAMES).1) := by
    unfold create_lab4_vector_db
    have hc0 : (⟨[]⟩ : Collection).entries.length = 0 := rfl
    rw [if_pos hc0, if_pos h]
  refine ⟨h1, by rw [h1]; rfl, ?_⟩
  rw [h1]
  exact h1

/-- The filesystem with every file missing. -/
def fsNone : String → Option (List (List Char)) := fun _ => none

/-- Witness for `create_db_empty_corpus_no_latch` on `fsNone`. -/
theorem create_db_empty_corpus_no_latch_witness :
    ((gatherBatch fsNone PDF_FILENAMES).2 = []) ∧
    create_lab4_vector_db fsNone ⟨[]⟩ = (⟨[]⟩, 0, (gatherBatch fsNone PDF_FILENAMES).1) :=
  ⟨by decide, (create_db_empty_corpus_no_latch fsNone (by decide)).1⟩
